import Mathlib

/-!
Shallow embedding of the SC-QBF Tabu Search engine (`scqbf/scqbf_ts.py`).

The evaluator (`scqbf_evaluator.py`) and the instance are external
collaborators per the design: they are modelled as an abstract structure of
pure query functions over a solution's element list.  Objective values and
move deltas are modelled as integers (the engine only compares them).
Randomness (shuffles, sampling, `random.choice`, the shuffled family order of
the first-improving strategy) is modelled by an explicit oracle supplying the
post-shuffle lists and choices; wall-clock time is an oracle as well.
Solutions are the `elements` lists of `ScQbfSolution`.
-/

namespace ScQbfTS

/-- Sentinel appended to the tabu list when no element moved (`PLACE_HOLDER = -1`). -/
def PLACE_HOLDER : Int := -1

/-- Abstract evaluator contract (`ScQbfEvaluator`): pure queries over a solution. -/
structure Evaluator where
  objfun : List Nat → Int
  feasible : List Nat → Bool
  insertionDelta : Nat → List Nat → Int
  removalDelta : Nat → List Nat → Int
  exchangeDelta : Nat → Nat → List Nat → Int
  insertionDeltaCoverage : Nat → List Nat → Int

/-- Selection state of the best-improving scan: `best_delta` starts at `-inf`
(modelled as `none`), together with `best_cand_in` / `best_cand_out`. -/
structure MoveSel where
  bestDelta : Option Int
  candIn : Option Nat
  candOut : Option Nat
deriving DecidableEq

/-- Comparison `delta > best_delta` where `best_delta` may be `-inf` (`none`). -/
def deltaGt (d : Int) : Option Int → Bool
  | none => true
  | some b => decide (b < d)

/-- Aspiration criterion `current_objfun_val + delta > best_objfun_val`. -/
def aspiration (cur bv delta : Int) : Bool := decide (bv < cur + delta)

/-- One step of the insertion loop of `_neighborhood_move_best_improving`. -/
def insStep (ev : Evaluator) (tabu : List Int) (cur bv : Int) (sol : List Nat)
    (st : MoveSel) (candIn : Nat) : MoveSel :=
  let delta := ev.insertionDelta candIn sol
  if !(tabu.contains (candIn : Int)) || aspiration cur bv delta then
    if deltaGt delta st.bestDelta then ⟨some delta, some candIn, none⟩ else st
  else st

/-- One step of the removal loop of `_neighborhood_move_best_improving`.
Note the source combines the non-tabu/non-fixed test with the aspiration
criterion using `and` here (line 222), unlike every other branch. -/
def remStep (ev : Evaluator) (tabu : List Int) (fixed : List Nat) (cur bv : Int)
    (sol : List Nat) (st : MoveSel) (candOut : Nat) : MoveSel :=
  let delta := ev.removalDelta candOut sol
  if (!(tabu.contains (candOut : Int)) && !(fixed.contains candOut)) && aspiration cur bv delta then
    if deltaGt delta st.bestDelta then
      if ev.feasible (sol.erase candOut) then ⟨some delta, none, some candOut⟩ else st
    else st
  else st

/-- One step of the exchange double loop of `_neighborhood_move_best_improving`. -/
def exchStep (ev : Evaluator) (tabu : List Int) (fixed : List Nat) (cur bv : Int)
    (sol : List Nat) (candIn : Nat) (st : MoveSel) (candOut : Nat) : MoveSel :=
  let delta := ev.exchangeDelta candIn candOut sol
  if (!(tabu.contains (candIn : Int)) && !(tabu.contains (candOut : Int))
      && !(fixed.contains candOut)) || aspiration cur bv delta then
    if deltaGt delta st.bestDelta then
      if ev.feasible ((sol ++ [candIn]).erase candOut) then ⟨some delta, some candIn, some candOut⟩
      else st
    else st
  else st

/-- Candidate selection of `_neighborhood_move_best_improving`: scan insertions,
then removals, then exchanges, keeping the greatest-delta move seen so far. -/
def bestImprovingSelect (ev : Evaluator) (tabu : List Int) (fixed : List Nat)
    (best sol cl : List Nat) : MoveSel :=
  let cur := ev.objfun sol
  let bv := ev.objfun best
  let st1 := cl.foldl (insStep ev tabu cur bv sol) ⟨none, none, none⟩
  let st2 := sol.foldl (remStep ev tabu fixed cur bv sol) st1
  cl.foldl (fun st candIn => sol.foldl (exchStep ev tabu fixed cur bv sol candIn) st) st2

/-- Result of one neighborhood move: the new solution's elements and the tabu list. -/
structure MoveResult where
  elements : List Nat
  tabu : List Int
deriving DecidableEq

/-- Append to a deque with max length `m`: the oldest entries are evicted. -/
def dequeAppend (m : Nat) (l : List Int) (x : Int) : List Int :=
  let l2 := l ++ [x]
  l2.drop (l2.length - m)

/-- Tabu entry recorded for half of a move: the element, or the placeholder. -/
def tabuEntry : Option Nat → Int
  | some e => (e : Int)
  | none => PLACE_HOLDER

/-- Implement the selected move and update the tabu list: first the out half,
then the in half, each appending either the element or a placeholder. -/
def applyMove (m : Nat) (tabu : List Int) (sol : List Nat)
    (candIn candOut : Option Nat) : MoveResult :=
  let p1 : List Nat × List Int :=
    match candOut with
    | some o => (sol.erase o, dequeAppend m tabu (o : Int))
    | none => (sol, dequeAppend m tabu PLACE_HOLDER)
  match candIn with
  | some i => ⟨p1.1 ++ [i], dequeAppend m p1.2 (i : Int)⟩
  | none => ⟨p1.1, dequeAppend m p1.2 PLACE_HOLDER⟩

/-- The whole `_neighborhood_move_best_improving`, given the post-shuffle
(and post-sample) candidate list `cl` and the tabu capacity `m`. -/
def bestImprovingMove (ev : Evaluator) (tabu : List Int) (fixed : List Nat)
    (best sol cl : List Nat) (m : Nat) : MoveResult :=
  let sel := bestImprovingSelect ev tabu fixed best sol cl
  applyMove m tabu sol sel.candIn sel.candOut

/-- The three move families of the first-improving strategy. -/
inductive Family where
  | ins
  | rem
  | exch
deriving DecidableEq

/-- The `evaluate_insertions` scan of `_neighborhood_move_first_improving`:
first candidate that is eligible and strictly improving. -/
def fiInsFind (ev : Evaluator) (tabu : List Int) (cur bv : Int)
    (sol cl : List Nat) : Option (Option Nat × Option Nat) :=
  cl.findSome? fun candIn =>
    let delta := ev.insertionDelta candIn sol
    if !(tabu.contains (candIn : Int)) || aspiration cur bv delta then
      if decide (0 < delta) then some (some candIn, none) else none
    else none

/-- The `evaluate_removals` scan of `_neighborhood_move_first_improving`. -/
def fiRemFind (ev : Evaluator) (tabu : List Int) (fixed : List Nat) (cur bv : Int)
    (sol : List Nat) : Option (Option Nat × Option Nat) :=
  sol.findSome? fun candOut =>
    let delta := ev.removalDelta candOut sol
    if (!(tabu.contains (candOut : Int)) && !(fixed.contains candOut)) || aspiration cur bv delta then
      if decide (0 < delta) then
        if ev.feasible (sol.erase candOut) then some (none, some candOut) else none
      else none
    else none

/-- The `evaluate_exchanges` scan of `_neighborhood_move_first_improving`. -/
def fiExchFind (ev : Evaluator) (tabu : List Int) (fixed : List Nat) (cur bv : Int)
    (sol cl : List Nat) : Option (Option Nat × Option Nat) :=
  cl.findSome? fun candIn =>
    sol.findSome? fun candOut =>
      let delta := ev.exchangeDelta candIn candOut sol
      if (!(tabu.contains (candIn : Int)) && !(tabu.contains (candOut : Int))
          && !(fixed.contains candOut)) || aspiration cur bv delta then
        if decide (0 < delta) then
          if ev.feasible ((sol ++ [candIn]).erase candOut) then some (some candIn, some candOut)
          else none
        else none
      else none

/-- Run one family evaluator. -/
def runFamily (ev : Evaluator) (tabu : List Int) (fixed : List Nat) (cur bv : Int)
    (sol cl : List Nat) : Family → Option (Option Nat × Option Nat)
  | .ins => fiInsFind ev tabu cur bv sol cl
  | .rem => fiRemFind ev tabu fixed cur bv sol
  | .exch => fiExchFind ev tabu fixed cur bv sol cl

/-- Candidate selection of `_neighborhood_move_first_improving`: the families
are tried in the (shuffled) `order`; the first improving move found wins. -/
def firstImprovingSelect (ev : Evaluator) (tabu : List Int) (fixed : List Nat)
    (best sol cl : List Nat) (order : List Family) : Option (Option Nat × Option Nat) :=
  let cur := ev.objfun sol
  let bv := ev.objfun best
  order.findSome? (runFamily ev tabu fixed cur bv sol cl)

/-- The whole `_neighborhood_move_first_improving`: when no family finds an
improving move, both selected candidates stay `None` and the move application
appends two placeholders leaving the elements unchanged. -/
def firstImprovingMove (ev : Evaluator) (tabu : List Int) (fixed : List Nat)
    (best sol cl : List Nat) (order : List Family) (m : Nat) : MoveResult :=
  match firstImprovingSelect ev tabu fixed best sol cl order with
  | some (ci, co) => applyMove m tabu sol ci co
  | none => applyMove m tabu sol none none

/-- Configuration of the intensification-by-restart component. -/
structure IbrConfig where
  restartPatience : Nat
  maxFixedElements : Nat

/-- Search strategy literal of `TSConfig`. -/
inductive Strategy where
  | first
  | best
deriving DecidableEq

/-- The `TSConfig` data class. -/
structure TSConfig where
  tenure : Nat
  searchStrategy : Strategy
  probabilisticTs : Bool
  probabilisticParam : ℚ
  ibr : Option IbrConfig

/-- Engine-level termination parameters of `ScQbfTS.__init__`. -/
structure EngineParams where
  maxIter : Option Nat
  timeLimitSecs : Option Int
  patience : Option Nat

/-- Randomness and wall-clock oracle: `clAt` models the shuffle of the
candidate list at a given iteration, `orderAt` the shuffled family order,
`timeAt` elapsed wall-clock time at a given check, `consShuffle` and
`consChoice` the randomness of the constructive heuristic. -/
structure Oracle where
  clAt : Nat → List Nat → List Nat
  orderAt : Nat → List Family
  timeAt : Nat → Int
  consShuffle : List Nat → List Nat
  consChoice : Nat → Nat

/-- Mutable state of the engine across the search loop. -/
structure TSState where
  current : List Nat
  best : List Nat
  tabu : List Int
  fixed : List Nat
  iter : Nat
  noImp : Nat
  prevBest : Option (List Nat)
  stopReason : Option String
  recency : List Nat
deriving DecidableEq

/-- Stop reason reported when `max_iter` is reached. -/
def stopMaxIter : String := "max_iter"

/-- Stop reason reported when the time limit is reached. -/
def stopTimeLimit : String := "time_limit"

/-- Stop reason reported when patience is exceeded. -/
def stopPatience : String := "patience_exceeded"

/-- Has an optional `Nat` threshold been reached by `v`. -/
def optReached (o : Option Nat) (v : Nat) : Bool :=
  match o with
  | some k => decide (k ≤ v)
  | none => false

/-- Has an optional `Int` threshold been reached by `v`. -/
def optReachedI (o : Option Int) (v : Int) : Bool :=
  match o with
  | some k => decide (k ≤ v)
  | none => false

/-- The `_eval_termination_condition` method: increments the iteration counter
first, then tests `max_iter`, the time limit, and patience in that order; on a
non-terminating check it updates the no-improvement counter (only when patience
is configured and a previous best exists) and records the previous best. -/
def evalTermination (p : EngineParams) (ev : Evaluator) (o : Oracle)
    (st : TSState) : TSState × Bool :=
  let st1 : TSState := { st with iter := st.iter + 1 }
  let t := o.timeAt st1.iter
  if optReached p.maxIter st1.iter then
    ({ st1 with stopReason := some stopMaxIter }, true)
  else if optReachedI p.timeLimitSecs t then
    ({ st1 with stopReason := some stopTimeLimit }, true)
  else
    match p.patience with
    | some pat =>
      if pat ≤ st1.noImp then
        ({ st1 with stopReason := some stopPatience }, true)
      else
        let st2 : TSState :=
          match st1.prevBest with
          | some pb =>
            if ev.objfun st1.current ≤ ev.objfun pb then { st1 with noImp := st1.noImp + 1 }
            else { st1 with noImp := 0 }
          | none => st1
        ({ st2 with prevBest := some st2.best }, false)
    | none => ({ st1 with prevBest := some st1.best }, false)

/-- The `update_recency_memory` method: increment the counter of every element
of the new best solution, reset every other counter to zero. -/
def updateRecency (n : Nat) (rec : List Nat) (best : List Nat) : List Nat :=
  (List.range n).map fun e => if best.contains e then rec.getD e 0 + 1 else 0

/-- The `get_attractive_elements` method: all indices sorted by descending
recency count (stable sort, as Python's `sorted` with `reverse=True`), keeping
those with nonzero count, truncated to `max_fixed_elements`. -/
def attractiveElements (n k : Nat) (rec : List Nat) : List Nat :=
  let sorted := (List.range n).mergeSort (fun a b => decide (rec.getD b 0 ≤ rec.getD a 0))
  (sorted.filter fun e => decide (0 < rec.getD e 0)).take k

/-- Does the intensification restart trigger in this loop iteration. -/
def restartTriggered (cfg : TSConfig) (st : TSState) : Bool :=
  match cfg.ibr with
  | some c => (st.noImp + 1) % c.restartPatience == 0
  | none => false

/-- The restart block at the top of the loop body of `solve`: on trigger, the
fixed set becomes the attractive elements and the current solution is reset to
a copy of the best solution's elements. -/
def restartPhase (n : Nat) (cfg : TSConfig) (st : TSState) : TSState :=
  match cfg.ibr with
  | some c =>
    if (st.noImp + 1) % c.restartPatience == 0 then
      { st with fixed := attractiveElements n c.maxFixedElements st.recency,
                current := st.best }
    else st
  | none => st

/-- Requested size of the probabilistic sample: `max(1, int(len(cl) * param))`.
For a nonnegative length and parameter, Python's truncation equals the floor
of `len * p`, computed here on integers as `(len * p.num) / p.den`. -/
def sampleSize (len : Nat) (p : ℚ) : Nat :=
  max 1 (Int.toNat (((len : Int) * p.num) / (p.den : Int)))

/-- Error message of `random.sample` when the sample exceeds the population. -/
def sampleErrMsg : String := "Sample larger than population or is negative"

/-- Error message of `random.choice` on an empty sequence. -/
def chooseErrMsg : String := "Cannot choose from an empty sequence"

/-- The `_neighborhood_move` dispatcher: build the candidate list (elements not
in the current solution), shuffle it (oracle), downsample it when probabilistic
TS is enabled (raising when the sample exceeds the population), and run the
configured strategy. -/
def neighborhoodMove (n : Nat) (cfg : TSConfig) (ev : Evaluator) (o : Oracle)
    (st : TSState) : Except String MoveResult :=
  let cl0 := (List.range n).filter fun i => !(st.current.contains i)
  let cl1 := o.clAt st.iter cl0
  let clE : Except String (List Nat) :=
    if cfg.probabilisticTs then
      let k := sampleSize cl1.length cfg.probabilisticParam
      if cl1.length < k then Except.error sampleErrMsg
      else Except.ok (cl1.take k)
    else Except.ok cl1
  match clE with
  | Except.error e => Except.error e
  | Except.ok cl =>
    match cfg.searchStrategy with
    | Strategy.best =>
      Except.ok (bestImprovingMove ev st.tabu st.fixed st.best st.current cl (cfg.tenure * 2))
    | Strategy.first =>
      Except.ok (firstImprovingMove ev st.tabu st.fixed st.best st.current cl
        (o.orderAt st.iter) (cfg.tenure * 2))

/-- One body of the `solve` loop, after a non-terminating check: restart phase,
neighborhood move, then best-solution (and recency-memory) update when the new
current objective strictly exceeds the recorded best objective. -/
def loopBody (n : Nat) (cfg : TSConfig) (ev : Evaluator) (o : Oracle)
    (st : TSState) : Except String TSState :=
  let st1 := restartPhase n cfg st
  match neighborhoodMove n cfg ev o st1 with
  | Except.error e => Except.error e
  | Except.ok mr =>
    let st2 : TSState := { st1 with current := mr.elements, tabu := mr.tabu }
    if ev.objfun st2.best < ev.objfun st2.current then
      let rec2 : List Nat :=
        match cfg.ibr with
        | some _ => updateRecency n st2.recency st2.current
        | none => st2.recency
      Except.ok { st2 with best := st2.current, recency := rec2 }
    else Except.ok st2

/-- The `while not self._eval_termination_condition()` loop of `solve`,
with explicit fuel. -/
def runLoop (n : Nat) (cfg : TSConfig) (p : EngineParams) (ev : Evaluator)
    (o : Oracle) : Nat → TSState → Except String TSState
  | 0, st => Except.ok st
  | fuel + 1, st =>
    let r := evalTermination p ev o st
    if r.2 then Except.ok r.1
    else
      match loopBody n cfg ev o r.1 with
      | Except.error e => Except.error e
      | Except.ok st2 => runLoop n cfg p ev o fuel st2

/-- The `_constructive_heuristic` loop: while the solution is infeasible,
restrict the pool to unchosen elements with positive coverage gain, pick one at
random (raising on an empty pool), append it and continue. -/
def constructiveLoop (ev : Evaluator) (o : Oracle) :
    Nat → List Nat → List Nat → Except String (List Nat)
  | 0, _, _ => Except.error chooseErrMsg
  | fuel + 1, sol, cl =>
    if ev.feasible sol then Except.ok sol
    else
      let rcl := cl.filter fun i => !(sol.contains i) && decide (0 < ev.insertionDeltaCoverage i sol)
      if rcl.isEmpty then Except.error chooseErrMsg
      else
        let element := rcl.getD (o.consChoice sol.length % rcl.length) 0
        constructiveLoop ev o fuel (sol ++ [element]) (rcl.erase element)

/-- Engine state entering the loop: both solutions are the constructed one, the
tabu list is created full of placeholders with capacity `tenure * 2`, the
recency memory full of zeros, all counters at zero. -/
def initState (n : Nat) (cfg : TSConfig) (c : List Nat) : TSState :=
  { current := c, best := c,
    tabu := List.replicate (cfg.tenure * 2) PLACE_HOLDER,
    fixed := [], iter := 0, noImp := 0, prevBest := none, stopReason := none,
    recency := List.replicate n 0 }

/-- The public `solve`: constructive heuristic, then the search loop. -/
def solve (n : Nat) (cfg : TSConfig) (p : EngineParams) (ev : Evaluator)
    (o : Oracle) (consFuel fuel : Nat) : Except String TSState :=
  match constructiveLoop ev o consFuel [] (o.consShuffle (List.range n)) with
  | Except.error e => Except.error e
  | Except.ok c => runLoop n cfg p ev o fuel (initState n cfg c)

/-! Analysis layer: eligibility guards factored out of the move scans, an
abstract greatest-delta scan step, and a datatype of candidate moves. -/

/-- Insertion eligibility (both strategies): non-tabu, or aspiration. -/
def insElig (ev : Evaluator) (tabu : List Int) (cur bv : Int) (sol : List Nat) (i : Nat) : Bool :=
  !(tabu.contains (i : Int)) || aspiration cur bv (ev.insertionDelta i sol)

/-- Removal eligibility as the best-improving branch computes it: non-tabu and
non-fixed AND aspiration (source line 222 conjoins the aspiration criterion). -/
def remEligB (ev : Evaluator) (tabu : List Int) (fixed : List Nat) (cur bv : Int)
    (sol : List Nat) (o : Nat) : Bool :=
  (!(tabu.contains (o : Int)) && !(fixed.contains o)) && aspiration cur bv (ev.removalDelta o sol)

/-- Removal eligibility as the first-improving branch computes it: non-tabu and
non-fixed, OR aspiration. -/
def remEligF (ev : Evaluator) (tabu : List Int) (fixed : List Nat) (cur bv : Int)
    (sol : List Nat) (o : Nat) : Bool :=
  (!(tabu.contains (o : Int)) && !(fixed.contains o)) || aspiration cur bv (ev.removalDelta o sol)

/-- Removal eligibility as the specification words it, for comparison with
`remEligB`: the element is not currently tabu and not fixed, unless the
aspiration criterion overrides the tabu status. -/
def remEligSpecRule (ev : Evaluator) (tabu : List Int) (fixed : List Nat) (cur bv : Int)
    (sol : List Nat) (o : Nat) : Bool :=
  (!(tabu.contains (o : Int)) && !(fixed.contains o)) || aspiration cur bv (ev.removalDelta o sol)

/-- Exchange eligibility (both strategies): both elements non-tabu and the out
element non-fixed, or aspiration. -/
def exchElig (ev : Evaluator) (tabu : List Int) (fixed : List Nat) (cur bv : Int)
    (sol : List Nat) (i o : Nat) : Bool :=
  (!(tabu.contains (i : Int)) && !(tabu.contains (o : Int)) && !(fixed.contains o))
    || aspiration cur bv (ev.exchangeDelta i o sol)

/-- Full best-improving insertion guard. -/
def insGuard (ev : Evaluator) (tabu : List Int) (cur bv : Int) (sol : List Nat) (i : Nat) : Bool :=
  insElig ev tabu cur bv sol i

/-- Full best-improving removal guard: eligibility plus the feasibility check. -/
def remGuard (ev : Evaluator) (tabu : List Int) (fixed : List Nat) (cur bv : Int)
    (sol : List Nat) (o : Nat) : Bool :=
  remEligB ev tabu fixed cur bv sol o && ev.feasible (sol.erase o)

/-- Full best-improving exchange guard: eligibility plus the feasibility check. -/
def exchGuard (ev : Evaluator) (tabu : List Int) (fixed : List Nat) (cur bv : Int)
    (sol : List Nat) (i o : Nat) : Bool :=
  exchElig ev tabu fixed cur bv sol i o && ev.feasible ((sol ++ [i]).erase o)

/-- Does a first-improving insertion scan accept candidate `i`. -/
def fiInsHit (ev : Evaluator) (tabu : List Int) (cur bv : Int) (sol : List Nat) (i : Nat) : Bool :=
  insElig ev tabu cur bv sol i && decide (0 < ev.insertionDelta i sol)

/-- Does a first-improving removal scan accept candidate `o`. -/
def fiRemHit (ev : Evaluator) (tabu : List Int) (fixed : List Nat) (cur bv : Int)
    (sol : List Nat) (o : Nat) : Bool :=
  (remEligF ev tabu fixed cur bv sol o && decide (0 < ev.removalDelta o sol))
    && ev.feasible (sol.erase o)

/-- Does a first-improving exchange scan accept the pair `(i, o)`. -/
def fiExchHit (ev : Evaluator) (tabu : List Int) (fixed : List Nat) (cur bv : Int)
    (sol : List Nat) (i o : Nat) : Bool :=
  (exchElig ev tabu fixed cur bv sol i o && decide (0 < ev.exchangeDelta i o sol))
    && ev.feasible ((sol ++ [i]).erase o)

/-- Abstract step of a greatest-delta scan: when the guard holds and the delta
beats the incumbent, record the candidate. -/
def genStep {α : Type} (G : α → Bool) (D : α → Int) (mkI mkO : α → Option Nat)
    (st : MoveSel) (c : α) : MoveSel :=
  if G c && deltaGt (D c) st.bestDelta then ⟨some (D c), mkI c, mkO c⟩ else st

/-- Ordering fact: an optional incumbent delta dominates the value `v`. -/
def optGe (b : Option Int) (v : Int) : Prop := ∃ y, b = some y ∧ v ≤ y

/-- Ordering on optional deltas, `none` being `-inf`. -/
def optLe : Option Int → Option Int → Prop
  | none, _ => True
  | some x, b => optGe b x

/-- A candidate move of one iteration. -/
inductive TsMove where
  | ins (i : Nat)
  | rem (o : Nat)
  | exch (i o : Nat)
deriving DecidableEq

/-- The delta the evaluator reports for a move. -/
def moveDelta (ev : Evaluator) (sol : List Nat) : TsMove → Int
  | .ins i => ev.insertionDelta i sol
  | .rem o => ev.removalDelta o sol
  | .exch i o => ev.exchangeDelta i o sol

/-- The element list after implementing a move the way `applyMove` does. -/
def moveElems (sol : List Nat) : TsMove → List Nat
  | .ins i => sol ++ [i]
  | .rem o => sol.erase o
  | .exch i o => sol.erase o ++ [i]

/-- The selection state recording a move with its delta. -/
def selOfMove (ev : Evaluator) (sol : List Nat) : TsMove → MoveSel
  | .ins i => ⟨some (ev.insertionDelta i sol), some i, none⟩
  | .rem o => ⟨some (ev.removalDelta o sol), none, some o⟩
  | .exch i o => ⟨some (ev.exchangeDelta i o sol), some i, some o⟩

/-- Is a move eligible for the best-improving scan, feasibility checks
included, with its elements drawn from the right pools. -/
def eligibleBest (ev : Evaluator) (tabu : List Int) (fixed : List Nat)
    (best sol cl : List Nat) : TsMove → Bool :=
  let cur := ev.objfun sol
  let bv := ev.objfun best
  fun m =>
    match m with
    | .ins i => cl.contains i && insGuard ev tabu cur bv sol i
    | .rem o => sol.contains o && remGuard ev tabu fixed cur bv sol o
    | .exch i o => cl.contains i && sol.contains o && exchGuard ev tabu fixed cur bv sol i o

/-! Concrete instances used by witnesses and counterexamples. -/

/-- Evaluator of the C1 failing input: one selected element worth 5, whose
removal has delta -1, with feasibility always satisfied. -/
def c1Ev : Evaluator :=
  { objfun := fun _ => 5, feasible := fun _ => true,
    insertionDelta := fun _ _ => 0, removalDelta := fun _ _ => -1,
    exchangeDelta := fun _ _ _ => 0, insertionDeltaCoverage := fun _ _ => 0 }

/-- Evaluator of the C1 aspiration-side input: the removal has delta 2, so the
aspiration criterion holds for it. -/
def c1EvAsp : Evaluator :=
  { objfun := fun _ => 5, feasible := fun _ => true,
    insertionDelta := fun _ _ => 0, removalDelta := fun _ _ => 2,
    exchangeDelta := fun _ _ _ => 0, insertionDeltaCoverage := fun _ _ => 0 }

/-- Evaluator used to model a tiny one-element instance: only solutions
containing element 0 are feasible, every element adds coverage. -/
def tinyEv : Evaluator :=
  { objfun := fun _ => 0, feasible := fun l => l.contains 0,
    insertionDelta := fun _ _ => 0, removalDelta := fun _ _ => 0,
    exchangeDelta := fun _ _ _ => 0, insertionDeltaCoverage := fun _ _ => 1 }

/-- Evaluator whose feasibility check always passes, with a single improving
insertion of element 1. -/
def allFeasEv : Evaluator :=
  { objfun := fun l => if l.contains 1 then 7 else 3, feasible := fun _ => true,
    insertionDelta := fun i _ => if i = 1 then 4 else -2,
    removalDelta := fun _ _ => -3, exchangeDelta := fun _ _ _ => -4,
    insertionDeltaCoverage := fun _ _ => 1 }

/-- Identity oracle: shuffles keep lists as they are, the clock stays at 0,
choices pick the first option. -/
def idOracle : Oracle :=
  { clAt := fun _ l => l, orderAt := fun _ => [Family.ins, Family.rem, Family.exch],
    timeAt := fun _ => 0, consShuffle := id, consChoice := fun _ => 0 }

/-- Plain best-improving configuration, no probabilistic sampling, no restart. -/
def plainBestCfg : TSConfig :=
  { tenure := 1, searchStrategy := Strategy.best, probabilisticTs := false,
    probabilisticParam := mkRat 4 5, ibr := none }

/-- Probabilistic best-improving configuration with a valid parameter. -/
def probBestCfg : TSConfig :=
  { tenure := 1, searchStrategy := Strategy.best, probabilisticTs := true,
    probabilisticParam := mkRat 1 2, ibr := none }

/-- Probabilistic first-improving configuration with a valid parameter. -/
def probFirstCfg : TSConfig :=
  { tenure := 1, searchStrategy := Strategy.first, probabilisticTs := true,
    probabilisticParam := mkRat 1 2, ibr := none }

/-- Intensification component configuration with patience 2 and at most 3 fixed
elements. -/
def ibrSub : IbrConfig := { restartPatience := 2, maxFixedElements := 3 }

/-- Best-improving configuration with an intensification component. -/
def ibrCfg : TSConfig :=
  { tenure := 1, searchStrategy := Strategy.best, probabilisticTs := false,
    probabilisticParam := mkRat 4 5, ibr := some ibrSub }

/-- Termination parameters: five iterations at most, nothing else. -/
def fiveIterParams : EngineParams :=
  { maxIter := some 5, timeLimitSecs := none, patience := none }

/-- Termination parameters: three iterations at most, nothing else. -/
def threeIterParams : EngineParams :=
  { maxIter := some 3, timeLimitSecs := none, patience := none }

/-- Default state used to name the result of a concrete run. -/
def dfltState : TSState := initState 0 plainBestCfg []

/-- The final state of a concrete run of the loop, as a total value. -/
def runStateOf (r : Except String TSState) : TSState := r.toOption.getD dfltState

end ScQbfTS

namespace ScQbfTS

/-! Ordering lemmas for optional incumbent deltas. -/

theorem optLe_refl (a : Option Int) : optLe a a := by
  cases a with
  | none => trivial
  | some x => exact ⟨x, rfl, le_refl x⟩

theorem optGe_mono {a b : Option Int} {v : Int} (hab : optLe a b) (ha : optGe a v) : optGe b v := by
  obtain ⟨y, hy, hvy⟩ := ha
  subst hy
  obtain ⟨z, hz, hyz⟩ := hab
  exact ⟨z, hz, le_trans hvy hyz⟩

theorem optLe_trans {a b c : Option Int} (hab : optLe a b) (hbc : optLe b c) : optLe a c := by
  cases a with
  | none => trivial
  | some x => exact optGe_mono hbc hab

/-! Lemmas on the abstract greatest-delta scan. -/

theorem if_and_if {A B : Bool} {x y : MoveSel} :
    (if A then (if B then x else y) else y) = (if A && B then x else y) := by
  cases A <;> cases B <;> simp

theorem if_and_if3 {A B C : Bool} {x y : MoveSel} :
    (if A then (if B then (if C then x else y) else y) else y) =
      (if (A && C) && B then x else y) := by
  cases A <;> cases B <;> cases C <;> simp

theorem genStep_le {α : Type} (G : α → Bool) (D : α → Int) (mkI mkO : α → Option Nat)
    (st : MoveSel) (c : α) : optLe st.bestDelta (genStep G D mkI mkO st c).bestDelta := by
  unfold genStep
  split
  · next h =>
    rw [Bool.and_eq_true] at h
    have hd : deltaGt (D c) st.bestDelta = true := h.2
    cases hb : st.bestDelta with
    | none => trivial
    | some b =>
      rw [hb] at hd
      exact ⟨D c, rfl, le_of_lt (of_decide_eq_true hd)⟩
  · exact optLe_refl _

theorem foldl_bestDelta_le {β : Type} (f : MoveSel → β → MoveSel)
    (h : ∀ st b, optLe st.bestDelta (f st b).bestDelta) :
    ∀ (l : List β) (st : MoveSel), optLe st.bestDelta (List.foldl f st l).bestDelta := by
  intro l
  induction l with
  | nil => intro st; exact optLe_refl _
  | cons b t ih =>
    intro st
    simp only [List.foldl_cons]
    exact optLe_trans (h st b) (ih (f st b))

theorem genFold_le {α : Type} (G : α → Bool) (D : α → Int) (mkI mkO : α → Option Nat)
    (l : List α) (st : MoveSel) :
    optLe st.bestDelta (List.foldl (genStep G D mkI mkO) st l).bestDelta :=
  foldl_bestDelta_le _ (genStep_le G D mkI mkO) l st

theorem genStep_ge {α : Type} (G : α → Bool) (D : α → Int) (mkI mkO : α → Option Nat)
    (st : MoveSel) (c : α) (hG : G c = true) :
    optGe (genStep G D mkI mkO st c).bestDelta (D c) := by
  unfold genStep
  split
  · exact ⟨D c, rfl, le_refl _⟩
  · next h =>
    rw [hG, Bool.true_and] at h
    cases hb : st.bestDelta with
    | none => rw [Bool.not_eq_true] at h; rw [hb] at h; exact absurd h (by simp [deltaGt])
    | some b =>
      rw [Bool.not_eq_true, hb] at h
      have : ¬ (b < D c) := of_decide_eq_false h
      exact ⟨b, rfl, le_of_not_lt this⟩

theorem genFold_ge {α : Type} (G : α → Bool) (D : α → Int) (mkI mkO : α → Option Nat)
    (l : List α) (st : MoveSel) (c : α) (hc : c ∈ l) (hG : G c = true) :
    optGe (List.foldl (genStep G D mkI mkO) st l).bestDelta (D c) := by
  induction l generalizing st with
  | nil => cases hc
  | cons hd t ih =>
    simp only [List.foldl_cons]
    rcases List.mem_cons.mp hc with h | h
    · subst h
      exact optGe_mono (genFold_le G D mkI mkO t _) (genStep_ge G D mkI mkO st c hG)
    · exact ih _ h

theorem genFold_cases {α : Type} (G : α → Bool) (D : α → Int) (mkI mkO : α → Option Nat)
    (l : List α) (st : MoveSel) :
    List.foldl (genStep G D mkI mkO) st l = st ∨
      ∃ c ∈ l, G c = true ∧
        List.foldl (genStep G D mkI mkO) st l = ⟨some (D c), mkI c, mkO c⟩ := by
  induction l generalizing st with
  | nil => left; rfl
  | cons hd t ih =>
    simp only [List.foldl_cons]
    cases hstep : (G hd && deltaGt (D hd) st.bestDelta) with
    | true =>
      have h1 : genStep G D mkI mkO st hd = ⟨some (D hd), mkI hd, mkO hd⟩ := by
        unfold genStep; rw [hstep]; rfl
      rw [h1]
      have hGhd : G hd = true := by
        rw [Bool.and_eq_true] at hstep
        exact hstep.1
      rcases ih ⟨some (D hd), mkI hd, mkO hd⟩ with h | ⟨c, hc, hGc, h⟩
      · right
        exact ⟨hd, List.mem_cons_self hd t, hGhd, h⟩
      · right
        exact ⟨c, List.mem_cons_of_mem hd hc, hGc, h⟩
    | false =>
      have h1 : genStep G D mkI mkO st hd = st := by
        unfold genStep; rw [hstep]; rfl
      rw [h1]
      rcases ih st with h | ⟨c, hc, hGc, h⟩
      · left; exact h
      · right; exact ⟨c, List.mem_cons_of_mem hd hc, hGc, h⟩

/-! The three best-improving scan steps are instances of the abstract step. -/

theorem insStep_eq (ev : Evaluator) (tabu : List Int) (cur bv : Int) (sol : List Nat) :
    insStep ev tabu cur bv sol =
      genStep (insGuard ev tabu cur bv sol) (fun i => ev.insertionDelta i sol)
        (fun i => some i) (fun _ => none) := by
  funext st c
  show (if _ then (if _ then _ else _) else _) = _
  rw [if_and_if]
  rfl

theorem remStep_eq (ev : Evaluator) (tabu : List Int) (fixed : List Nat) (cur bv : Int)
    (sol : List Nat) :
    remStep ev tabu fixed cur bv sol =
      genStep (remGuard ev tabu fixed cur bv sol) (fun o => ev.removalDelta o sol)
        (fun _ => none) (fun o => some o) := by
  funext st c
  show (if _ then (if _ then (if _ then _ else _) else _) else _) = _
  rw [if_and_if3]
  rfl

theorem exchStep_eq (ev : Evaluator) (tabu : List Int) (fixed : List Nat) (cur bv : Int)
    (sol : List Nat) (i : Nat) :
    exchStep ev tabu fixed cur bv sol i =
      genStep (fun o => exchGuard ev tabu fixed cur bv sol i o) (fun o => ev.exchangeDelta i o sol)
        (fun _ => some i) (fun o => some o) := by
  funext st c
  show (if _ then (if _ then (if _ then _ else _) else _) else _) = _
  rw [if_and_if3]
  rfl

theorem bestSelect_eq (ev : Evaluator) (tabu : List Int) (fixed : List Nat)
    (best sol cl : List Nat) :
    bestImprovingSelect ev tabu fixed best sol cl =
      List.foldl
        (fun st i =>
          List.foldl
            (genStep (fun o => exchGuard ev tabu fixed (ev.objfun sol) (ev.objfun best) sol i o)
              (fun o => ev.exchangeDelta i o sol) (fun _ => some i) (fun o => some o)) st sol)
        (List.foldl
          (genStep (remGuard ev tabu fixed (ev.objfun sol) (ev.objfun best) sol)
            (fun o => ev.removalDelta o sol) (fun _ => none) (fun o => some o))
          (List.foldl
            (genStep (insGuard ev tabu (ev.objfun sol) (ev.objfun best) sol)
              (fun i => ev.insertionDelta i sol) (fun i => some i) (fun _ => none))
            ⟨none, none, none⟩ cl) sol) cl := by
  unfold bestImprovingSelect
  simp only [insStep_eq, remStep_eq, exchStep_eq]

end ScQbfTS

namespace ScQbfTS

/-! Lemmas on the nested exchange fold. -/

theorem exchOuter_le (G2 : Nat → Nat → Bool) (D2 : Nat → Nat → Int)
    (mkI2 mkO2 : Nat → Nat → Option Nat) (cl sol : List Nat) (st : MoveSel) :
    optLe st.bestDelta
      (List.foldl (fun st i => List.foldl (genStep (G2 i) (D2 i) (mkI2 i) (mkO2 i)) st sol)
        st cl).bestDelta :=
  foldl_bestDelta_le _ (fun st i => genFold_le (G2 i) (D2 i) (mkI2 i) (mkO2 i) sol st) cl st

theorem exchOuter_ge (G2 : Nat → Nat → Bool) (D2 : Nat → Nat → Int)
    (mkI2 mkO2 : Nat → Nat → Option Nat) (cl sol : List Nat) (st : MoveSel) (i o : Nat)
    (hi : i ∈ cl) (ho : o ∈ sol) (hG : G2 i o = true) :
    optGe
      (List.foldl (fun st i => List.foldl (genStep (G2 i) (D2 i) (mkI2 i) (mkO2 i)) st sol)
        st cl).bestDelta (D2 i o) := by
  induction cl generalizing st with
  | nil => cases hi
  | cons hd t ih =>
    simp only [List.foldl_cons]
    rcases List.mem_cons.mp hi with h | h
    · subst h
      exact optGe_mono (exchOuter_le G2 D2 mkI2 mkO2 t sol _)
        (genFold_ge (G2 i) (D2 i) (mkI2 i) (mkO2 i) sol st o ho hG)
    · exact ih _ h

theorem exchOuter_cases (G2 : Nat → Nat → Bool) (D2 : Nat → Nat → Int)
    (mkI2 mkO2 : Nat → Nat → Option Nat) (cl sol : List Nat) (st : MoveSel) :
    List.foldl (fun st i => List.foldl (genStep (G2 i) (D2 i) (mkI2 i) (mkO2 i)) st sol)
        st cl = st ∨
      ∃ i ∈ cl, ∃ o ∈ sol, G2 i o = true ∧
        List.foldl (fun st i => List.foldl (genStep (G2 i) (D2 i) (mkI2 i) (mkO2 i)) st sol)
          st cl = ⟨some (D2 i o), mkI2 i o, mkO2 i o⟩ := by
  induction cl generalizing st with
  | nil => left; rfl
  | cons hd t ih =>
    simp only [List.foldl_cons]
    rcases genFold_cases (G2 hd) (D2 hd) (mkI2 hd) (mkO2 hd) sol st with h1 | ⟨o, ho, hG, h1⟩
    · rw [h1]
      rcases ih st with h | ⟨i, hi, o, ho, hG, h⟩
      · left; exact h
      · right; exact ⟨i, List.mem_cons_of_mem hd hi, o, ho, hG, h⟩
    · rw [h1]
      rcases ih _ with h | ⟨i, hi, o2, ho2, hG2, h⟩
      · right; exact ⟨hd, List.mem_cons_self hd t, o, ho, hG, h⟩
      · right; exact ⟨i, List.mem_cons_of_mem hd hi, o2, ho2, hG2, h⟩

/-! Characterization of the best-improving selection. -/

theorem bestSelect_ge (ev : Evaluator) (tabu : List Int) (fixed : List Nat)
    (best sol cl : List Nat) (m : TsMove)
    (hm : eligibleBest ev tabu fixed best sol cl m = true) :
    optGe (bestImprovingSelect ev tabu fixed best sol cl).bestDelta (moveDelta ev sol m) := by
  rw [bestSelect_eq]
  cases m with
  | ins i =>
    simp only [eligibleBest, Bool.and_eq_true] at hm
    obtain ⟨hcl, hg⟩ := hm
    have hmem : i ∈ cl := by simpa using hcl
    refine optGe_mono (optLe_trans (genFold_le _ _ _ _ sol _) (exchOuter_le _ _ _ _ cl sol _)) ?_
    exact genFold_ge _ _ _ _ cl _ i hmem hg
  | rem o =>
    simp only [eligibleBest, Bool.and_eq_true] at hm
    obtain ⟨hsol, hg⟩ := hm
    have hmem : o ∈ sol := by simpa using hsol
    refine optGe_mono (exchOuter_le _ _ _ _ cl sol _) ?_
    exact genFold_ge _ _ _ _ sol _ o hmem hg
  | exch i o =>
    simp only [eligibleBest, Bool.and_eq_true] at hm
    obtain ⟨⟨hcl, hsol⟩, hg⟩ := hm
    have hmi : i ∈ cl := by simpa using hcl
    have hmo : o ∈ sol := by simpa using hsol
    exact exchOuter_ge _ _ _ _ cl sol _ i o hmi hmo hg

theorem bestSelect_cases (ev : Evaluator) (tabu : List Int) (fixed : List Nat)
    (best sol cl : List Nat) :
    bestImprovingSelect ev tabu fixed best sol cl = ⟨none, none, none⟩ ∨
      ∃ m, eligibleBest ev tabu fixed best sol cl m = true ∧
        bestImprovingSelect ev tabu fixed best sol cl = selOfMove ev sol m := by
  rw [bestSelect_eq]
  rcases exchOuter_cases
      (fun i o => exchGuard ev tabu fixed (ev.objfun sol) (ev.objfun best) sol i o)
      (fun i o => ev.exchangeDelta i o sol) (fun i _ => some i) (fun _ o => some o) cl sol _ with
    h3 | ⟨i, hi, o, ho, hG, h3⟩
  · rw [h3]
    rcases genFold_cases (remGuard ev tabu fixed (ev.objfun sol) (ev.objfun best) sol)
        (fun o => ev.removalDelta o sol) (fun _ => none) (fun o => some o) sol _ with
      h2 | ⟨o, ho, hG, h2⟩
    · rw [h2]
      rcases genFold_cases (insGuard ev tabu (ev.objfun sol) (ev.objfun best) sol)
          (fun i => ev.insertionDelta i sol) (fun i => some i) (fun _ => none) cl _ with
        h1 | ⟨i, hi, hG, h1⟩
      · left; exact h1
      · right
        refine ⟨TsMove.ins i, ?_, h1⟩
        simp only [eligibleBest, Bool.and_eq_true]
        exact ⟨by simpa using hi, hG⟩
    · right
      refine ⟨TsMove.rem o, ?_, h2⟩
      simp only [eligibleBest, Bool.and_eq_true]
      exact ⟨by simpa using ho, hG⟩
  · right
    refine ⟨TsMove.exch i o, ?_, h3⟩
    simp only [eligibleBest, Bool.and_eq_true]
    exact ⟨⟨by simpa using hi, by simpa using ho⟩, hG⟩

/-! Lemmas on the move application. -/

theorem applyMove_tabu (m : Nat) (tabu : List Int) (sol : List Nat) (ci co : Option Nat) :
    (applyMove m tabu sol ci co).tabu =
      dequeAppend m (dequeAppend m tabu (tabuEntry co)) (tabuEntry ci) := by
  cases ci <;> cases co <;> rfl

theorem applyMove_elements (m : Nat) (tabu : List Int) (sol : List Nat) (ci co : Option Nat) :
    (applyMove m tabu sol ci co).elements =
      (match co with
        | some o => sol.erase o
        | none => sol) ++
      (match ci with
        | some i => [i]
        | none => []) := by
  cases ci <;> cases co <;> simp [applyMove]

theorem dequeAppend_length (m : Nat) (l : List Int) (x : Int) :
    (dequeAppend m l x).length = min (l.length + 1) m := by
  simp [dequeAppend]
  omega

theorem bestMove_def (ev : Evaluator) (tabu : List Int) (fixed : List Nat)
    (best sol cl : List Nat) (m : Nat) :
    bestImprovingMove ev tabu fixed best sol cl m =
      applyMove m tabu sol (bestImprovingSelect ev tabu fixed best sol cl).candIn
        (bestImprovingSelect ev tabu fixed best sol cl).candOut := rfl

end ScQbfTS

namespace ScQbfTS

/-! Characterization of the first-improving scans. -/

theorem fiInsFind_some {ev : Evaluator} {tabu : List Int} {cur bv : Int} {sol cl : List Nat}
    {r : Option Nat × Option Nat} (h : fiInsFind ev tabu cur bv sol cl = some r) :
    ∃ i ∈ cl, r = (some i, none) ∧ fiInsHit ev tabu cur bv sol i = true := by
  obtain ⟨i, hi, hbody⟩ := List.exists_of_findSome?_eq_some h
  dsimp only at hbody
  split at hbody
  · split at hbody
    · next hA hB =>
      refine ⟨i, hi, ?_, ?_⟩
      · injection hbody with h'
        exact h'.symm
      · unfold fiInsHit insElig
        rw [hA, hB]
        rfl
    · cases hbody
  · cases hbody

theorem fiRemFind_some {ev : Evaluator} {tabu : List Int} {fixed : List Nat} {cur bv : Int}
    {sol : List Nat} {r : Option Nat × Option Nat}
    (h : fiRemFind ev tabu fixed cur bv sol = some r) :
    ∃ o ∈ sol, r = (none, some o) ∧ fiRemHit ev tabu fixed cur bv sol o = true := by
  obtain ⟨o, ho, hbody⟩ := List.exists_of_findSome?_eq_some h
  dsimp only at hbody
  split at hbody
  · split at hbody
    · split at hbody
      · next h1 h2 h3 =>
        refine ⟨o, ho, ?_, ?_⟩
        · injection hbody with h'
          exact h'.symm
        · unfold fiRemHit remEligF
          rw [h1, h2, h3]
          rfl
      · cases hbody
    · cases hbody
  · cases hbody

theorem fiExchFind_some {ev : Evaluator} {tabu : List Int} {fixed : List Nat} {cur bv : Int}
    {sol cl : List Nat} {r : Option Nat × Option Nat}
    (h : fiExchFind ev tabu fixed cur bv sol cl = some r) :
    ∃ i ∈ cl, ∃ o ∈ sol, r = (some i, some o) ∧ fiExchHit ev tabu fixed cur bv sol i o = true := by
  obtain ⟨i, hi, hinner⟩ := List.exists_of_findSome?_eq_some h
  obtain ⟨o, ho, hbody⟩ := List.exists_of_findSome?_eq_some hinner
  dsimp only at hbody
  split at hbody
  · split at hbody
    · split at hbody
      · next h1 h2 h3 =>
        refine ⟨i, hi, o, ho, ?_, ?_⟩
        · injection hbody with h'
          exact h'.symm
        · unfold fiExchHit exchElig
          rw [h1, h2, h3]
          rfl
      · cases hbody
    · cases hbody
  · cases hbody

theorem fiInsFind_none {ev : Evaluator} {tabu : List Int} {cur bv : Int} {sol cl : List Nat}
    (h : ∀ i ∈ cl, fiInsHit ev tabu cur bv sol i = false) :
    fiInsFind ev tabu cur bv sol cl = none := by
  refine List.findSome?_eq_none_iff.mpr ?_
  intro i hi
  have hhit := h i hi
  dsimp only
  split
  · split
    · next hA hB =>
      have htrue : fiInsHit ev tabu cur bv sol i = true := by
        unfold fiInsHit insElig
        rw [hA, hB]
        rfl
      rw [htrue] at hhit
      cases hhit
    · rfl
  · rfl

theorem fiRemFind_none {ev : Evaluator} {tabu : List Int} {fixed : List Nat} {cur bv : Int}
    {sol : List Nat} (h : ∀ o ∈ sol, fiRemHit ev tabu fixed cur bv sol o = false) :
    fiRemFind ev tabu fixed cur bv sol = none := by
  refine List.findSome?_eq_none_iff.mpr ?_
  intro o ho
  have hhit := h o ho
  dsimp only
  split
  · split
    · split
      · next h1 h2 h3 =>
        have htrue : fiRemHit ev tabu fixed cur bv sol o = true := by
          unfold fiRemHit remEligF
          rw [h1, h2, h3]
          rfl
        rw [htrue] at hhit
        cases hhit
      · rfl
    · rfl
  · rfl

theorem fiExchFind_none {ev : Evaluator} {tabu : List Int} {fixed : List Nat} {cur bv : Int}
    {sol cl : List Nat} (h : ∀ i ∈ cl, ∀ o ∈ sol, fiExchHit ev tabu fixed cur bv sol i o = false) :
    fiExchFind ev tabu fixed cur bv sol cl = none := by
  refine List.findSome?_eq_none_iff.mpr ?_
  intro i hi
  refine List.findSome?_eq_none_iff.mpr ?_
  intro o ho
  have hhit := h i hi o ho
  dsimp only
  split
  · split
    · split
      · next h1 h2 h3 =>
        have htrue : fiExchHit ev tabu fixed cur bv sol i o = true := by
          unfold fiExchHit exchElig
          rw [h1, h2, h3]
          rfl
        rw [htrue] at hhit
        cases hhit
      · rfl
    · rfl
  · rfl

theorem fiSelect_some {ev : Evaluator} {tabu : List Int} {fixed : List Nat}
    {best sol cl : List Nat} {order : List Family} {r : Option Nat × Option Nat}
    (h : firstImprovingSelect ev tabu fixed best sol cl order = some r) :
    (∃ i ∈ cl, r = (some i, none) ∧
        fiInsHit ev tabu (ev.objfun sol) (ev.objfun best) sol i = true) ∨
    (∃ o ∈ sol, r = (none, some o) ∧
        fiRemHit ev tabu fixed (ev.objfun sol) (ev.objfun best) sol o = true) ∨
    (∃ i ∈ cl, ∃ o ∈ sol, r = (some i, some o) ∧
        fiExchHit ev tabu fixed (ev.objfun sol) (ev.objfun best) sol i o = true) := by
  unfold firstImprovingSelect at h
  obtain ⟨f, _, hrun⟩ := List.exists_of_findSome?_eq_some h
  cases f with
  | ins => exact Or.inl (fiInsFind_some hrun)
  | rem => exact Or.inr (Or.inl (fiRemFind_some hrun))
  | exch => exact Or.inr (Or.inr (fiExchFind_some hrun))

theorem fiSelect_none {ev : Evaluator} {tabu : List Int} {fixed : List Nat}
    {best sol cl : List Nat} (order : List Family)
    (hIns : ∀ i ∈ cl, fiInsHit ev tabu (ev.objfun sol) (ev.objfun best) sol i = false)
    (hRem : ∀ o ∈ sol, fiRemHit ev tabu fixed (ev.objfun sol) (ev.objfun best) sol o = false)
    (hExch : ∀ i ∈ cl, ∀ o ∈ sol,
      fiExchHit ev tabu fixed (ev.objfun sol) (ev.objfun best) sol i o = false) :
    firstImprovingSelect ev tabu fixed best sol cl order = none := by
  unfold firstImprovingSelect
  refine List.findSome?_eq_none_iff.mpr ?_
  intro f _
  cases f with
  | ins => exact fiInsFind_none hIns
  | rem => exact fiRemFind_none hRem
  | exch => exact fiExchFind_none hExch

end ScQbfTS

namespace ScQbfTS

theorem applyMove_elems_nn (m : Nat) (tabu : List Int) (sol : List Nat) :
    (applyMove m tabu sol none none).elements = sol := rfl

theorem applyMove_elems_in (m : Nat) (tabu : List Int) (sol : List Nat) (i : Nat) :
    (applyMove m tabu sol (some i) none).elements = sol ++ [i] := rfl

theorem applyMove_elems_out (m : Nat) (tabu : List Int) (sol : List Nat) (o : Nat) :
    (applyMove m tabu sol none (some o)).elements = sol.erase o := rfl

theorem applyMove_elems_ex (m : Nat) (tabu : List Int) (sol : List Nat) (i o : Nat) :
    (applyMove m tabu sol (some i) (some o)).elements = sol.erase o ++ [i] := rfl

theorem bestMove_feasible (ev : Evaluator) (tabu : List Int) (fixed : List Nat)
    (best sol cl : List Nat) (m : Nat)
    (hmono : ∀ l x, ev.feasible l = true → ev.feasible (l ++ [x]) = true)
    (hsol : ev.feasible sol = true) :
    ev.feasible (bestImprovingMove ev tabu fixed best sol cl m).elements = true := by
  rw [bestMove_def]
  rcases bestSelect_cases ev tabu fixed best sol cl with h | ⟨mv, hel, h⟩
  · rw [h]
    exact hsol
  · rw [h]
    cases mv with
    | ins i => exact hmono sol i hsol
    | rem o =>
      simp only [eligibleBest, Bool.and_eq_true] at hel
      obtain ⟨-, hg⟩ := hel
      unfold remGuard at hg
      rw [Bool.and_eq_true] at hg
      exact hg.2
    | exch i o =>
      simp only [eligibleBest, Bool.and_eq_true] at hel
      obtain ⟨⟨-, ho⟩, hg⟩ := hel
      unfold exchGuard at hg
      rw [Bool.and_eq_true] at hg
      have hmem : o ∈ sol := by simpa using ho
      have heq : (sol ++ [i]).erase o = sol.erase o ++ [i] := List.erase_append_left _ hmem
      have := hg.2
      rw [heq] at this
      exact this

theorem firstMove_feasible (ev : Evaluator) (tabu : List Int) (fixed : List Nat)
    (best sol cl : List Nat) (order : List Family) (m : Nat)
    (hmono : ∀ l x, ev.feasible l = true → ev.feasible (l ++ [x]) = true)
    (hsol : ev.feasible sol = true) :
    ev.feasible (firstImprovingMove ev tabu fixed best sol cl order m).elements = true := by
  unfold firstImprovingMove
  cases hsel : firstImprovingSelect ev tabu fixed best sol cl order with
  | none => exact hsol
  | some r =>
    obtain ⟨ci, co⟩ := r
    rcases fiSelect_some hsel with ⟨i, hi, hr, hhit⟩ | ⟨o, ho, hr, hhit⟩ | ⟨i, hi, o, ho, hr, hhit⟩
    · cases hr
      exact hmono sol i hsol
    · cases hr
      unfold fiRemHit at hhit
      rw [Bool.and_eq_true] at hhit
      exact hhit.2
    · cases hr
      unfold fiExchHit at hhit
      rw [Bool.and_eq_true] at hhit
      have heq : (sol ++ [i]).erase o = sol.erase o ++ [i] := List.erase_append_left _ ho
      have := hhit.2
      rw [heq] at this
      exact this

end ScQbfTS

namespace ScQbfTS

theorem et_cases (p : EngineParams) (ev : Evaluator) (o : Oracle) (st : TSState) :
    evalTermination p ev o st =
        ({ st with iter := st.iter + 1, stopReason := some stopMaxIter }, true) ∨
    evalTermination p ev o st =
        ({ st with iter := st.iter + 1, stopReason := some stopTimeLimit }, true) ∨
    evalTermination p ev o st =
        ({ st with iter := st.iter + 1, stopReason := some stopPatience }, true) ∨
    evalTermination p ev o st =
        ({ st with iter := st.iter + 1, prevBest := some st.best }, false) ∨
    evalTermination p ev o st =
        ({ st with iter := st.iter + 1, noImp := st.noImp + 1, prevBest := some st.best }, false) ∨
    evalTermination p ev o st =
        ({ st with iter := st.iter + 1, noImp := 0, prevBest := some st.best }, false) := by
  unfold evalTermination
  dsimp only
  by_cases h1 : optReached p.maxIter (st.iter + 1) = true
  · rw [if_pos h1]
    exact Or.inl rfl
  · rw [if_neg h1]
    by_cases h2 : optReachedI p.timeLimitSecs (o.timeAt (st.iter + 1)) = true
    · rw [if_pos h2]
      exact Or.inr (Or.inl rfl)
    · rw [if_neg h2]
      cases hp : p.patience with
      | none => exact Or.inr (Or.inr (Or.inr (Or.inl rfl)))
      | some P =>
        dsimp only
        by_cases h3 : P ≤ st.noImp
        · rw [if_pos h3]
          exact Or.inr (Or.inr (Or.inl rfl))
        · rw [if_neg h3]
          cases hpb : st.prevBest with
          | none => exact Or.inr (Or.inr (Or.inr (Or.inl rfl)))
          | some pb =>
            dsimp only
            by_cases h4 : ev.objfun st.current ≤ ev.objfun pb
            · rw [if_pos h4]
              exact Or.inr (Or.inr (Or.inr (Or.inr (Or.inl rfl))))
            · rw [if_neg h4]
              exact Or.inr (Or.inr (Or.inr (Or.inr (Or.inr rfl))))

theorem et_state (p : EngineParams) (ev : Evaluator) (o : Oracle) (st : TSState) :
    ((evalTermination p ev o st).1).iter = st.iter + 1 ∧
    ((evalTermination p ev o st).1).current = st.current ∧
    ((evalTermination p ev o st).1).best = st.best ∧
    ((evalTermination p ev o st).1).tabu = st.tabu ∧
    ((evalTermination p ev o st).1).fixed = st.fixed ∧
    ((evalTermination p ev o st).1).recency = st.recency := by
  rcases et_cases p ev o st with h | h | h | h | h | h <;> rw [h] <;>
    exact ⟨rfl, rfl, rfl, rfl, rfl, rfl⟩

theorem et_noImp_le (p : EngineParams) (ev : Evaluator) (o : Oracle) (st : TSState) :
    ((evalTermination p ev o st).1).noImp ≤ st.noImp + 1 := by
  rcases et_cases p ev o st with h | h | h | h | h | h <;> rw [h] <;> dsimp only <;> omega

theorem et_noImp_none (p : EngineParams) (ev : Evaluator) (o : Oracle) (st : TSState)
    (hp : p.patience = none) :
    ((evalTermination p ev o st).1).noImp = st.noImp := by
  unfold evalTermination
  dsimp only
  by_cases h1 : optReached p.maxIter (st.iter + 1) = true
  · rw [if_pos h1]
  · rw [if_neg h1]
    by_cases h2 : optReachedI p.timeLimitSecs (o.timeAt (st.iter + 1)) = true
    · rw [if_pos h2]
    · rw [if_neg h2, hp]

theorem et_stop_max (p : EngineParams) (ev : Evaluator) (o : Oracle) (st : TSState)
    (K : Nat) (hK : p.maxIter = some K) (h : K ≤ st.iter + 1) :
    evalTermination p ev o st =
      ({ st with iter := st.iter + 1, stopReason := some stopMaxIter }, true) := by
  unfold evalTermination optReached
  rw [hK]
  simp [h]

theorem et_snd_false (p : EngineParams) (ev : Evaluator) (o : Oracle) (st : TSState)
    (hmax : optReached p.maxIter (st.iter + 1) = false)
    (htime : optReachedI p.timeLimitSecs (o.timeAt (st.iter + 1)) = false)
    (hpat : ∀ P, p.patience = some P → st.noImp < P) :
    (evalTermination p ev o st).2 = false := by
  unfold evalTermination
  dsimp only
  rw [if_neg (by rw [hmax]; exact Bool.false_ne_true),
    if_neg (by rw [htime]; exact Bool.false_ne_true)]
  cases hp : p.patience with
  | none => rfl
  | some P =>
    dsimp only
    have hlt := hpat P hp
    rw [if_neg (by omega)]

theorem restartTriggered_iff (cfg : TSConfig) (c : IbrConfig) (st : TSState)
    (hc : cfg.ibr = some c) :
    restartTriggered cfg st = true ↔ (st.noImp + 1) % c.restartPatience = 0 := by
  unfold restartTriggered
  rw [hc]
  simp

theorem restartPhase_pos (n : Nat) (cfg : TSConfig) (c : IbrConfig) (st : TSState)
    (hc : cfg.ibr = some c) (h : restartTriggered cfg st = true) :
    restartPhase n cfg st =
      { st with fixed := attractiveElements n c.maxFixedElements st.recency,
                current := st.best } := by
  unfold restartTriggered at h
  rw [hc] at h
  unfold restartPhase
  rw [hc]
  dsimp only
  rw [if_pos h]

theorem restartPhase_neg (n : Nat) (cfg : TSConfig) (st : TSState)
    (h : restartTriggered cfg st = false) :
    restartPhase n cfg st = st := by
  unfold restartTriggered at h
  unfold restartPhase
  cases hc : cfg.ibr with
  | none => rfl
  | some c =>
    rw [hc] at h
    dsimp only at h
    dsimp only
    rw [if_neg (by rw [h]; exact Bool.false_ne_true)]

theorem restartPhase_frame (n : Nat) (cfg : TSConfig) (st : TSState) :
    (restartPhase n cfg st).iter = st.iter ∧
    (restartPhase n cfg st).noImp = st.noImp ∧
    (restartPhase n cfg st).best = st.best ∧
    (restartPhase n cfg st).tabu = st.tabu ∧
    (restartPhase n cfg st).prevBest = st.prevBest ∧
    (restartPhase n cfg st).stopReason = st.stopReason ∧
    (restartPhase n cfg st).recency = st.recency := by
  unfold restartPhase
  cases cfg.ibr with
  | none => exact ⟨rfl, rfl, rfl, rfl, rfl, rfl, rfl⟩
  | some c =>
    dsimp only
    split <;> exact ⟨rfl, rfl, rfl, rfl, rfl, rfl, rfl⟩

theorem restartPhase_current (n : Nat) (cfg : TSConfig) (st : TSState) :
    (restartPhase n cfg st).current = st.current ∨
    (restartPhase n cfg st).current = st.best := by
  unfold restartPhase
  cases cfg.ibr with
  | none => exact Or.inl rfl
  | some c =>
    dsimp only
    split
    · exact Or.inr rfl
    · exact Or.inl rfl

end ScQbfTS

namespace ScQbfTS

theorem nbMove_ok_cases {n : Nat} {cfg : TSConfig} {ev : Evaluator} {o : Oracle}
    {st : TSState} {mr : MoveResult} (h : neighborhoodMove n cfg ev o st = Except.ok mr) :
    ∃ cl, mr = bestImprovingMove ev st.tabu st.fixed st.best st.current cl (cfg.tenure * 2) ∨
      ∃ order, mr = firstImprovingMove ev st.tabu st.fixed st.best st.current cl order
        (cfg.tenure * 2) := by
  unfold neighborhoodMove at h
  dsimp only at h
  cases hpts : cfg.probabilisticTs with
  | false =>
    rw [hpts] at h
    cases hst : cfg.searchStrategy with
    | best =>
      rw [hst] at h
      injection h with h'
      exact ⟨_, Or.inl h'.symm⟩
    | first =>
      rw [hst] at h
      injection h with h'
      exact ⟨_, Or.inr ⟨_, h'.symm⟩⟩
  | true =>
    rw [hpts] at h
    split at h
    · cases h
    · cases hst : cfg.searchStrategy with
      | best =>
        rw [hst] at h
        injection h with h'
        exact ⟨_, Or.inl h'.symm⟩
      | first =>
        rw [hst] at h
        injection h with h'
        exact ⟨_, Or.inr ⟨_, h'.symm⟩⟩

theorem nbMove_ok_nonprob (n : Nat) (cfg : TSConfig) (ev : Evaluator) (o : Oracle)
    (st : TSState) (hprob : cfg.probabilisticTs = false) :
    ∃ mr, neighborhoodMove n cfg ev o st = Except.ok mr := by
  unfold neighborhoodMove
  dsimp only
  rw [hprob]
  cases cfg.searchStrategy
  · exact ⟨_, rfl⟩
  · exact ⟨_, rfl⟩

end ScQbfTS

namespace ScQbfTS

theorem loopBody_frame {n : Nat} {cfg : TSConfig} {ev : Evaluator} {o : Oracle}
    {st st' : TSState} (h : loopBody n cfg ev o st = Except.ok st') :
    st'.iter = st.iter ∧ st'.noImp = st.noImp ∧ st'.stopReason = st.stopReason ∧
    st'.prevBest = st.prevBest := by
  unfold loopBody at h
  dsimp only at h
  cases hmv : neighborhoodMove n cfg ev o (restartPhase n cfg st) with
  | error e => rw [hmv] at h; cases h
  | ok mr =>
    rw [hmv] at h
    dsimp only at h
    obtain ⟨hi, hn, -, -, hp2, hs, -⟩ := restartPhase_frame n cfg st
    split at h
    · injection h with h'
      subst h'
      exact ⟨hi, hn, hs, hp2⟩
    · injection h with h'
      subst h'
      exact ⟨hi, hn, hs, hp2⟩

theorem loopBody_best {n : Nat} {cfg : TSConfig} {ev : Evaluator} {o : Oracle}
    {st st' : TSState} (h : loopBody n cfg ev o st = Except.ok st') :
    st'.best = st.best ∨ ev.objfun st.best < ev.objfun st'.best := by
  unfold loopBody at h
  dsimp only at h
  cases hmv : neighborhoodMove n cfg ev o (restartPhase n cfg st) with
  | error e => rw [hmv] at h; cases h
  | ok mr =>
    rw [hmv] at h
    dsimp only at h
    have hb : (restartPhase n cfg st).best = st.best := (restartPhase_frame n cfg st).2.2.1
    split at h
    · next hlt =>
      injection h with h'
      subst h'
      right
      rw [hb] at hlt
      exact hlt
    · injection h with h'
      subst h'
      left
      exact hb

theorem loopBody_feasible {n : Nat} {cfg : TSConfig} {ev : Evaluator} {o : Oracle}
    {st st' : TSState}
    (hmono : ∀ l x, ev.feasible l = true → ev.feasible (l ++ [x]) = true)
    (hcur : ev.feasible st.current = true) (hbest : ev.feasible st.best = true)
    (h : loopBody n cfg ev o st = Except.ok st') :
    ev.feasible st'.current = true ∧ ev.feasible st'.best = true := by
  unfold loopBody at h
  dsimp only at h
  cases hmv : neighborhoodMove n cfg ev o (restartPhase n cfg st) with
  | error e => rw [hmv] at h; cases h
  | ok mr =>
    rw [hmv] at h
    dsimp only at h
    have hb : (restartPhase n cfg st).best = st.best := (restartPhase_frame n cfg st).2.2.1
    have hc1 : ev.feasible (restartPhase n cfg st).current = true := by
      rcases restartPhase_current n cfg st with hcc | hcc <;> rw [hcc]
      · exact hcur
      · exact hbest
    have hb1 : ev.feasible (restartPhase n cfg st).best = true := by
      rw [hb]; exact hbest
    have hmr : ev.feasible mr.elements = true := by
      rcases nbMove_ok_cases hmv with ⟨cl, hcase | ⟨order, hcase⟩⟩
      · rw [hcase]
        exact bestMove_feasible ev _ _ _ _ cl _ hmono hc1
      · rw [hcase]
        exact firstMove_feasible ev _ _ _ _ cl order _ hmono hc1
    split at h
    · injection h with h'
      subst h'
      exact ⟨hmr, hmr⟩
    · injection h with h'
      subst h'
      exact ⟨hmr, hb1⟩

theorem loopBody_ok {n : Nat} {cfg : TSConfig} (ev : Evaluator) (o : Oracle) (st : TSState)
    (hprob : cfg.probabilisticTs = false) :
    ∃ st', loopBody n cfg ev o st = Except.ok st' := by
  unfold loopBody
  dsimp only
  obtain ⟨mr, hmv⟩ := nbMove_ok_nonprob n cfg ev o (restartPhase n cfg st) hprob
  rw [hmv]
  dsimp only
  split
  · exact ⟨_, rfl⟩
  · exact ⟨_, rfl⟩

end ScQbfTS

namespace ScQbfTS

theorem runLoop_best_mono (n : Nat) (cfg : TSConfig) (p : EngineParams) (ev : Evaluator)
    (o : Oracle) :
    ∀ (fuel : Nat) (st st' : TSState), runLoop n cfg p ev o fuel st = Except.ok st' →
      ev.objfun st.best ≤ ev.objfun st'.best := by
  intro fuel
  induction fuel with
  | zero =>
    intro st st' h
    injection h with h'
    subst h'
    exact le_refl _
  | succ f ih =>
    intro st st' h
    unfold runLoop at h
    dsimp only at h
    have hbe : ((evalTermination p ev o st).1).best = st.best := (et_state p ev o st).2.2.1
    split at h
    · injection h with h'
      subst h'
      rw [hbe]
    · cases hlb : loopBody n cfg ev o (evalTermination p ev o st).1 with
      | error e => rw [hlb] at h; cases h
      | ok st2 =>
        rw [hlb] at h
        have h3 := ih st2 st' h
        rcases loopBody_best hlb with hb | hb
        · rw [hb, hbe] at h3
          exact h3
        · rw [hbe] at hb
          exact le_trans (le_of_lt hb) h3

theorem runLoop_noImp (n : Nat) (cfg : TSConfig) (p : EngineParams) (ev : Evaluator)
    (o : Oracle) (hp : p.patience = none) :
    ∀ (fuel : Nat) (st st' : TSState), runLoop n cfg p ev o fuel st = Except.ok st' →
      st'.noImp = st.noImp := by
  intro fuel
  induction fuel with
  | zero =>
    intro st st' h
    injection h with h'
    subst h'
    rfl
  | succ f ih =>
    intro st st' h
    unfold runLoop at h
    dsimp only at h
    have hni : ((evalTermination p ev o st).1).noImp = st.noImp := et_noImp_none p ev o st hp
    split at h
    · injection h with h'
      subst h'
      exact hni
    · cases hlb : loopBody n cfg ev o (evalTermination p ev o st).1 with
      | error e => rw [hlb] at h; cases h
      | ok st2 =>
        rw [hlb] at h
        have h2 := (loopBody_frame hlb).2.1
        rw [ih st2 st' h, h2, hni]

theorem runLoop_feasible (n : Nat) (cfg : TSConfig) (p : EngineParams) (ev : Evaluator)
    (o : Oracle) (hmono : ∀ l x, ev.feasible l = true → ev.feasible (l ++ [x]) = true) :
    ∀ (fuel : Nat) (st st' : TSState), ev.feasible st.current = true →
      ev.feasible st.best = true → runLoop n cfg p ev o fuel st = Except.ok st' →
      ev.feasible st'.current = true ∧ ev.feasible st'.best = true := by
  intro fuel
  induction fuel with
  | zero =>
    intro st st' hc hb h
    injection h with h'
    subst h'
    exact ⟨hc, hb⟩
  | succ f ih =>
    intro st st' hc hb h
    unfold runLoop at h
    dsimp only at h
    obtain ⟨-, hcur, hbest, -, -, -⟩ := et_state p ev o st
    split at h
    · injection h with h'
      subst h'
      rw [hcur, hbest]
      exact ⟨hc, hb⟩
    · cases hlb : loopBody n cfg ev o (evalTermination p ev o st).1 with
      | error e => rw [hlb] at h; cases h
      | ok st2 =>
        rw [hlb] at h
        have hfc : ev.feasible ((evalTermination p ev o st).1).current = true := by
          rw [hcur]; exact hc
        have hfb : ev.feasible ((evalTermination p ev o st).1).best = true := by
          rw [hbest]; exact hb
        obtain ⟨h1, h2⟩ := loopBody_feasible hmono hfc hfb hlb
        exact ih st2 st' h1 h2 h

theorem runLoop_maxIter (n : Nat) (cfg : TSConfig) (p : EngineParams) (ev : Evaluator)
    (o : Oracle) (K : Nat) (hK : p.maxIter = some K) (hprob : cfg.probabilisticTs = false)
    (htime : ∀ k, optReachedI p.timeLimitSecs (o.timeAt k) = false)
    (hpat : ∀ P, p.patience = some P → K ≤ P) :
    ∀ (fuel : Nat) (st : TSState), st.iter < K → st.noImp ≤ st.iter → K ≤ st.iter + fuel →
      Except.map (fun s => (s.iter, s.stopReason)) (runLoop n cfg p ev o fuel st) =
        Except.ok (K, some stopMaxIter) := by
  intro fuel
  induction fuel with
  | zero =>
    intro st h1 h2 h3
    omega
  | succ f ih =>
    intro st hlt hni hfuel
    unfold runLoop
    dsimp only
    by_cases hK1 : K ≤ st.iter + 1
    · have hstop := et_stop_max p ev o st K hK hK1
      rw [hstop]
      dsimp only [Except.map]
      have hKe : st.iter + 1 = K := by omega
      rw [hKe]
      rfl
    · have hm : optReached p.maxIter (st.iter + 1) = false := by
        unfold optReached
        rw [hK]
        simp
        omega
      have hsnd := et_snd_false p ev o st hm (htime _)
        (fun P hpP => by have := hpat P hpP; omega)
      rw [if_neg (by rw [hsnd]; exact Bool.false_ne_true)]
      obtain ⟨st2, hlb⟩ := loopBody_ok ev o (evalTermination p ev o st).1 hprob
      rw [hlb]
      have hit : st2.iter = st.iter + 1 := by
        have ha := (loopBody_frame hlb).1
        have hb := (et_state p ev o st).1
        rw [ha, hb]
      have hnoi : st2.noImp ≤ st2.iter := by
        have ha := (loopBody_frame hlb).2.1
        have hb := et_noImp_le p ev o st
        omega
      apply ih st2 (by omega) hnoi (by omega)

theorem constructiveLoop_feasible (ev : Evaluator) (o : Oracle) :
    ∀ (fuel : Nat) (sol cl c : List Nat), constructiveLoop ev o fuel sol cl = Except.ok c →
      ev.feasible c = true := by
  intro fuel
  induction fuel with
  | zero => intro sol cl c h; cases h
  | succ f ih =>
    intro sol cl c h
    unfold constructiveLoop at h
    by_cases hf : ev.feasible sol = true
    · rw [if_pos hf] at h
      injection h with h'
      subst h'
      exact hf
    · rw [if_neg hf] at h
      dsimp only at h
      split at h
      · cases h
      · exact ih _ _ _ h

theorem solve_feasible (n : Nat) (cfg : TSConfig) (p : EngineParams) (ev : Evaluator)
    (o : Oracle) (consFuel fuel : Nat) (st' : TSState)
    (hmono : ∀ l x, ev.feasible l = true → ev.feasible (l ++ [x]) = true)
    (h : solve n cfg p ev o consFuel fuel = Except.ok st') :
    ev.feasible st'.best = true := by
  unfold solve at h
  cases hcons : constructiveLoop ev o consFuel [] (o.consShuffle (List.range n)) with
  | error e => rw [hcons] at h; cases h
  | ok c =>
    rw [hcons] at h
    have hfc : ev.feasible c = true := constructiveLoop_feasible ev o _ _ _ _ hcons
    exact (runLoop_feasible n cfg p ev o hmono fuel (initState n cfg c) st' hfc hfc h).2

theorem solve_noImp (n : Nat) (cfg : TSConfig) (p : EngineParams) (ev : Evaluator)
    (o : Oracle) (consFuel fuel : Nat) (st' : TSState) (hp : p.patience = none)
    (h : solve n cfg p ev o consFuel fuel = Except.ok st') :
    st'.noImp = 0 := by
  unfold solve at h
  cases hcons : constructiveLoop ev o consFuel [] (o.consShuffle (List.range n)) with
  | error e => rw [hcons] at h; cases h
  | ok c =>
    rw [hcons] at h
    exact runLoop_noImp n cfg p ev o hp fuel (initState n cfg c) st' h

end ScQbfTS

namespace ScQbfTS

theorem bestMove_tabu (ev : Evaluator) (tabu : List Int) (fixed : List Nat)
    (best sol cl : List Nat) (m : Nat) :
    (bestImprovingMove ev tabu fixed best sol cl m).tabu =
      dequeAppend m
        (dequeAppend m tabu (tabuEntry (bestImprovingSelect ev tabu fixed best sol cl).candOut))
        (tabuEntry (bestImprovingSelect ev tabu fixed best sol cl).candIn) := by
  rw [bestMove_def]
  exact applyMove_tabu m tabu sol _ _

theorem firstMove_tabu (ev : Evaluator) (tabu : List Int) (fixed : List Nat)
    (best sol cl : List Nat) (order : List Family) (m : Nat) :
    (firstImprovingMove ev tabu fixed best sol cl order m).tabu =
      dequeAppend m
        (dequeAppend m tabu
          (tabuEntry ((firstImprovingSelect ev tabu fixed best sol cl order).getD (none, none)).2))
        (tabuEntry ((firstImprovingSelect ev tabu fixed best sol cl order).getD (none, none)).1) := by
  unfold firstImprovingMove
  cases firstImprovingSelect ev tabu fixed best sol cl order with
  | none => exact applyMove_tabu m tabu sol _ _
  | some r =>
    obtain ⟨ci, co⟩ := r
    exact applyMove_tabu m tabu sol _ _

theorem dequeAppend_le (m : Nat) (l : List Int) (x : Int) : (dequeAppend m l x).length ≤ m := by
  rw [dequeAppend_length]
  omega

theorem firstMove_of_select_none {ev : Evaluator} {tabu : List Int} {fixed : List Nat}
    {best sol cl : List Nat} {order : List Family} {m : Nat}
    (hsel : firstImprovingSelect ev tabu fixed best sol cl order = none) :
    firstImprovingMove ev tabu fixed best sol cl order m = applyMove m tabu sol none none := by
  unfold firstImprovingMove
  rw [hsel]

theorem bestMove_elements_of_none {ev : Evaluator} {tabu : List Int} {fixed : List Nat}
    {best sol cl : List Nat} (m : Nat)
    (h : bestImprovingSelect ev tabu fixed best sol cl = ⟨none, none, none⟩) :
    (bestImprovingMove ev tabu fixed best sol cl m).elements = sol := by
  rw [bestMove_def, h]
  rfl

theorem bestMove_elements_of_move {ev : Evaluator} {tabu : List Int} {fixed : List Nat}
    {best sol cl : List Nat} (m : Nat) (mv : TsMove)
    (h : bestImprovingSelect ev tabu fixed best sol cl = selOfMove ev sol mv) :
    (bestImprovingMove ev tabu fixed best sol cl m).elements = moveElems sol mv := by
  rw [bestMove_def, h]
  cases mv <;> rfl

theorem attractiveElements_length (n k : Nat) (rec : List Nat) :
    (attractiveElements n k rec).length ≤ k := by
  unfold attractiveElements
  exact List.length_take_le k _

theorem attractiveElements_mem {n k : Nat} {rec : List Nat} {e : Nat}
    (he : e ∈ attractiveElements n k rec) : 0 < rec.getD e 0 ∧ e < n := by
  unfold attractiveElements at he
  have h1 := List.mem_of_mem_take he
  have h2 := List.mem_filter.mp h1
  refine ⟨of_decide_eq_true h2.2, ?_⟩
  have h3 : e ∈ (List.range n).mergeSort (fun a b => decide (rec.getD b 0 ≤ rec.getD a 0)) := h2.1
  rw [List.mem_mergeSort] at h3
  exact List.mem_range.mp h3

theorem attractiveElements_sorted (n k : Nat) (rec : List Nat) :
    List.Pairwise (fun a b => rec.getD b 0 ≤ rec.getD a 0) (attractiveElements n k rec) := by
  have hs := @List.sorted_mergeSort Nat (fun a b => decide (rec.getD b 0 ≤ rec.getD a 0))
    (fun a b c hab hbc => by
      have h1 := of_decide_eq_true hab
      have h2 := of_decide_eq_true hbc
      exact decide_eq_true (le_trans h2 h1))
    (fun a b => by
      show (decide (rec.getD b 0 ≤ rec.getD a 0) || decide (rec.getD a 0 ≤ rec.getD b 0)) = true
      rcases Nat.le_total (rec.getD b 0) (rec.getD a 0) with h | h
      · simp only [decide_eq_true h, Bool.true_or]
      · simp only [decide_eq_true h, Bool.or_true])
    (List.range n)
  have hp : List.Pairwise (fun a b => rec.getD b 0 ≤ rec.getD a 0)
      ((List.range n).mergeSort (fun a b => decide (rec.getD b 0 ≤ rec.getD a 0))) :=
    hs.imp fun h => of_decide_eq_true h
  unfold attractiveElements
  exact hp.sublist ((List.take_sublist _ _).trans (List.filter_sublist _))

end ScQbfTS

namespace ScQbfTS

/-- C1: the best-improving removal branch conjoins the aspiration criterion
with the non-tabu/non-fixed test (source line 222), so a non-tabu, non-fixed,
feasibility-preserving removal whose delta does not beat the best objective is
NOT eligible, against the specification's rule (`remEligSpecRule`), and the
aspiration override never applies to best-improving removals either: at both
failing inputs the only candidate removal is skipped and the solution returned
unchanged with two placeholder tabu entries. -/
theorem c1_best_removal_requires_aspiration :
    remGuard c1Ev [] [] 5 5 [0] 0 = false ∧
    remEligSpecRule c1Ev [] [] 5 5 [0] 0 = true ∧
    c1Ev.feasible (([0] : List Nat).erase 0) = true ∧
    (bestImprovingMove c1Ev [] [] [0] [0] [] 2).elements = [0] ∧
    (bestImprovingMove c1Ev [] [] [0] [0] [] 2).tabu = [PLACE_HOLDER, PLACE_HOLDER] ∧
    remGuard c1EvAsp [(0 : Int)] [] 5 5 [0] 0 = false ∧
    remEligSpecRule c1EvAsp [(0 : Int)] [] 5 5 [0] 0 = true ∧
    (bestImprovingMove c1EvAsp [(0 : Int)] [] [0] [0] [] 2).elements = [0] := by
  decide

/-- C2 counterexample: a concrete input on which the best-improving move
returns a solution with exactly the same elements as its input (the single
removal candidate breaks feasibility and the candidate list is empty), so the
call does not apply any move. -/
theorem c2_counterexample :
    (bestImprovingMove tinyEv [] [] [0] [0] [] 2).elements = [0] := by
  decide

/-- C2 amended: the best-improving selection dominates the delta of every
eligible move; whenever at least one eligible move exists the returned solution
implements an eligible move whose delta is the selected one (even when all
deltas are non-positive), and when no move is eligible the returned elements
equal the input's. -/
theorem c2_always_moves_amended (ev : Evaluator) (tabu : List Int) (fixed : List Nat)
    (best sol cl : List Nat) (m : Nat) :
    (∀ mv, eligibleBest ev tabu fixed best sol cl mv = true →
      optGe (bestImprovingSelect ev tabu fixed best sol cl).bestDelta (moveDelta ev sol mv)) ∧
    ((∃ mv, eligibleBest ev tabu fixed best sol cl mv = true) →
      ∃ mv, eligibleBest ev tabu fixed best sol cl mv = true ∧
        bestImprovingSelect ev tabu fixed best sol cl = selOfMove ev sol mv ∧
        (bestImprovingMove ev tabu fixed best sol cl m).elements = moveElems sol mv) ∧
    ((∀ mv, eligibleBest ev tabu fixed best sol cl mv = false) →
      (bestImprovingMove ev tabu fixed best sol cl m).elements = sol) := by
  refine ⟨fun mv h => bestSelect_ge ev tabu fixed best sol cl mv h, ?_, ?_⟩
  · intro ⟨mv, hmv⟩
    rcases bestSelect_cases ev tabu fixed best sol cl with h | ⟨mv', hel, h⟩
    · obtain ⟨y, hy, -⟩ := bestSelect_ge ev tabu fixed best sol cl mv hmv
      rw [h] at hy
      cases hy
    · exact ⟨mv', hel, h, bestMove_elements_of_move m mv' h⟩
  · intro hnone
    rcases bestSelect_cases ev tabu fixed best sol cl with h | ⟨mv', hel, h⟩
    · exact bestMove_elements_of_none m h
    · rw [hnone mv'] at hel
      cases hel

/-- C2 witness: a non-tabu insertion with negative delta is eligible, and the
selection's incumbent delta dominates it. -/
theorem c2_always_moves_witness :
    optGe (bestImprovingSelect allFeasEv [] [] [0] [0] [2]).bestDelta
      (moveDelta allFeasEv [0] (TsMove.ins 2)) :=
  (c2_always_moves_amended allFeasEv [] [] [0] [0] [2] 2).1 (TsMove.ins 2) (by decide)

/-- C3: the termination check increments the iteration counter before testing
any stopping condition, and with `max_iter = K ≥ 1` configured and neither the
time limit nor patience triggering first, the loop ends with the counter at
exactly `K` and stop reason `max_iter`. -/
theorem c3_max_iter (n : Nat) (cfg : TSConfig) (p : EngineParams) (ev : Evaluator)
    (o : Oracle) (K fuel : Nat) (c : List Nat) (hK : p.maxIter = some K) (h1 : 1 ≤ K)
    (hprob : cfg.probabilisticTs = false)
    (htime : ∀ k, optReachedI p.timeLimitSecs (o.timeAt k) = false)
    (hpat : ∀ P, p.patience = some P → K ≤ P) (hfuel : K ≤ fuel) :
    (∀ st : TSState, ((evalTermination p ev o st).1).iter = st.iter + 1) ∧
    Except.map (fun s => (s.iter, s.stopReason))
        (runLoop n cfg p ev o fuel (initState n cfg c)) =
      Except.ok (K, some stopMaxIter) := by
  constructor
  · intro st
    exact (et_state p ev o st).1
  · refine runLoop_maxIter n cfg p ev o K hK hprob htime hpat fuel (initState n cfg c) ?_ ?_ ?_
    · show 0 < K
      omega
    · exact le_refl 0
    · show K ≤ 0 + fuel
      omega

/-- C3 witness: a concrete three-iteration run stops with counter 3 and reason
`max_iter`. -/
theorem c3_max_iter_witness :
    Except.map (fun s => (s.iter, s.stopReason))
        (runLoop 1 plainBestCfg threeIterParams tinyEv idOracle 3 (initState 1 plainBestCfg [0])) =
      Except.ok (3, some stopMaxIter) :=
  (c3_max_iter 1 plainBestCfg threeIterParams tinyEv idOracle 3 3 [0] rfl (by decide) rfl
    (fun _ => rfl) (fun _ hp => nomatch hp) (by decide)).2

/-- C4: the best solution is replaced in a loop body only when the new current
objective strictly exceeds the recorded best objective, and across any run of
the loop the best objective never decreases. -/
theorem c4_best_monotone (n : Nat) (cfg : TSConfig) (p : EngineParams) (ev : Evaluator)
    (o : Oracle) :
    (∀ st st', loopBody n cfg ev o st = Except.ok st' →
      st'.best = st.best ∨ ev.objfun st.best < ev.objfun st'.best) ∧
    (∀ fuel st st', runLoop n cfg p ev o fuel st = Except.ok st' →
      ev.objfun st.best ≤ ev.objfun st'.best) :=
  ⟨fun _ _ h => loopBody_best h,
   fun fuel st st' h => runLoop_best_mono n cfg p ev o fuel st st' h⟩

/-- C4 witness: the monotonicity instance on a concrete three-iteration run. -/
theorem c4_best_monotone_witness :
    tinyEv.objfun (initState 1 plainBestCfg [0]).best ≤
      tinyEv.objfun (runStateOf
        (runLoop 1 plainBestCfg threeIterParams tinyEv idOracle 3
          (initState 1 plainBestCfg [0]))).best :=
  (c4_best_monotone 1 plainBestCfg threeIterParams tinyEv idOracle).2 3 _ _ (by rfl)

/-- C5: when coverage (feasibility) is monotone under appending an element,
every terminating run of `solve` returns a best solution that passes the
evaluator's feasibility check. -/
theorem c5_final_feasible (n : Nat) (cfg : TSConfig) (p : EngineParams) (ev : Evaluator)
    (o : Oracle) (consFuel fuel : Nat) (st' : TSState)
    (hmono : ∀ l x, ev.feasible l = true → ev.feasible (l ++ [x]) = true)
    (h : solve n cfg p ev o consFuel fuel = Except.ok st') :
    ev.feasible st'.best = true :=
  solve_feasible n cfg p ev o consFuel fuel st' hmono h

/-- C5 witness: a concrete run under an always-feasible evaluator. -/
theorem c5_final_feasible_witness :
    allFeasEv.feasible
      (runStateOf (solve 1 plainBestCfg threeIterParams allFeasEv idOracle 2 3)).best = true :=
  c5_final_feasible 1 plainBestCfg threeIterParams allFeasEv idOracle 2 3 _
    (fun _ _ _ => rfl) (by rfl)

end ScQbfTS

namespace ScQbfTS

/-- C6: the tabu list is created full of placeholders with size exactly
`tenure * 2`; every neighborhood move (both strategies) produces the tabu list
obtained by two deque appends in fixed order — first the removed element or a
placeholder, then the inserted element or a placeholder — and a deque append
evicts the oldest entry so the length, `min (len + 1) m`, never exceeds the
capacity. -/
theorem c6_tabu_discipline (n : Nat) (cfg : TSConfig) (c : List Nat) :
    (initState n cfg c).tabu = List.replicate (cfg.tenure * 2) PLACE_HOLDER ∧
    (initState n cfg c).tabu.length = cfg.tenure * 2 ∧
    (∀ (ev : Evaluator) (tabu : List Int) (fixed best sol cl : List Nat) (m : Nat),
      (bestImprovingMove ev tabu fixed best sol cl m).tabu =
        dequeAppend m
          (dequeAppend m tabu
            (tabuEntry (bestImprovingSelect ev tabu fixed best sol cl).candOut))
          (tabuEntry (bestImprovingSelect ev tabu fixed best sol cl).candIn)) ∧
    (∀ (ev : Evaluator) (tabu : List Int) (fixed best sol cl : List Nat)
        (order : List Family) (m : Nat),
      (firstImprovingMove ev tabu fixed best sol cl order m).tabu =
        dequeAppend m
          (dequeAppend m tabu
            (tabuEntry ((firstImprovingSelect ev tabu fixed best sol cl order).getD
              (none, none)).2))
          (tabuEntry ((firstImprovingSelect ev tabu fixed best sol cl order).getD
            (none, none)).1)) ∧
    (∀ (m : Nat) (tabu : List Int) (x : Int),
      (dequeAppend m tabu x).length = min (tabu.length + 1) m) ∧
    (∀ (ev : Evaluator) (tabu : List Int) (fixed best sol cl : List Nat) (m : Nat),
      (bestImprovingMove ev tabu fixed best sol cl m).tabu.length ≤ m) ∧
    (∀ (ev : Evaluator) (tabu : List Int) (fixed best sol cl : List Nat)
        (order : List Family) (m : Nat),
      (firstImprovingMove ev tabu fixed best sol cl order m).tabu.length ≤ m) := by
  refine ⟨rfl, by simp [initState], fun ev tabu fixed best sol cl m => bestMove_tabu ev tabu fixed best sol cl m,
    fun ev tabu fixed best sol cl order m => firstMove_tabu ev tabu fixed best sol cl order m,
    fun m tabu x => dequeAppend_length m tabu x, ?_, ?_⟩
  · intro ev tabu fixed best sol cl m
    rw [bestMove_tabu]
    exact dequeAppend_le m _ _
  · intro ev tabu fixed best sol cl order m
    rw [firstMove_tabu]
    exact dequeAppend_le m _ _

/-- C7: with an intensification component configured, a restart triggers
exactly when `(no_improvement_iter + 1) mod restart_patience = 0`; on trigger
the fixed set becomes the attractive elements and the current solution is reset
to the best solution, otherwise the state is untouched; the attractive
elements are at most `max_fixed_elements` many, all have nonzero recency count
and valid index, and are sorted by descending recency count. -/
theorem c7_restart (cfg : TSConfig) (c : IbrConfig) (hc : cfg.ibr = some c) :
    (∀ st : TSState,
      restartTriggered cfg st = true ↔ (st.noImp + 1) % c.restartPatience = 0) ∧
    (∀ (n : Nat) (st : TSState), restartTriggered cfg st = true →
      restartPhase n cfg st =
        { st with fixed := attractiveElements n c.maxFixedElements st.recency,
                  current := st.best }) ∧
    (∀ (n : Nat) (st : TSState), restartTriggered cfg st = false →
      restartPhase n cfg st = st) ∧
    (∀ (n k : Nat) (rec : List Nat), (attractiveElements n k rec).length ≤ k) ∧
    (∀ (n k : Nat) (rec : List Nat), ∀ e ∈ attractiveElements n k rec,
      0 < rec.getD e 0 ∧ e < n) ∧
    (∀ (n k : Nat) (rec : List Nat),
      List.Pairwise (fun a b => rec.getD b 0 ≤ rec.getD a 0) (attractiveElements n k rec)) :=
  ⟨fun st => restartTriggered_iff cfg c st hc,
   fun n st h => restartPhase_pos n cfg c st hc h,
   fun n st h => restartPhase_neg n cfg st h,
   fun n k rec => attractiveElements_length n k rec,
   fun n k rec e he => attractiveElements_mem he,
   fun n k rec => attractiveElements_sorted n k rec⟩

/-- C7 witness: the trigger criterion instantiated on the intensification
configuration with restart patience 2. -/
theorem c7_restart_witness :
    restartTriggered ibrCfg dfltState = true ↔
      (dfltState.noImp + 1) % ibrSub.restartPatience = 0 :=
  (c7_restart ibrCfg ibrSub rfl).1 dfltState

/-- C8: when no family accepts any candidate (no eligible strictly improving
move exists), the first-improving move returns the input elements unchanged
while still appending two placeholder entries to the tabu list, for every
family order. -/
theorem c8_first_no_improving (ev : Evaluator) (tabu : List Int) (fixed : List Nat)
    (best sol cl : List Nat) (order : List Family) (m : Nat)
    (hIns : ∀ i ∈ cl, fiInsHit ev tabu (ev.objfun sol) (ev.objfun best) sol i = false)
    (hRem : ∀ o ∈ sol, fiRemHit ev tabu fixed (ev.objfun sol) (ev.objfun best) sol o = false)
    (hExch : ∀ i ∈ cl, ∀ o ∈ sol,
      fiExchHit ev tabu fixed (ev.objfun sol) (ev.objfun best) sol i o = false) :
    (firstImprovingMove ev tabu fixed best sol cl order m).elements = sol ∧
    (firstImprovingMove ev tabu fixed best sol cl order m).tabu =
      dequeAppend m (dequeAppend m tabu PLACE_HOLDER) PLACE_HOLDER := by
  have hsel := fiSelect_none order hIns hRem hExch
  rw [firstMove_of_select_none hsel]
  exact ⟨rfl, applyMove_tabu m tabu sol none none⟩

/-- C8 witness: a concrete state where every delta is zero, so no family finds
an improving move and the solution is returned unchanged with two placeholder
appends. -/
theorem c8_first_no_improving_witness :
    (firstImprovingMove tinyEv [] [] [0] [0] [1]
        [Family.ins, Family.rem, Family.exch] 2).elements = [0] ∧
    (firstImprovingMove tinyEv [] [] [0] [0] [1]
        [Family.ins, Family.rem, Family.exch] 2).tabu =
      dequeAppend 2 (dequeAppend 2 [] PLACE_HOLDER) PLACE_HOLDER :=
  c8_first_no_improving tinyEv [] [] [0] [0] [1] [Family.ins, Family.rem, Family.exch] 2
    (by decide) (by decide) (by decide)

/-- C9: when patience is not configured, the termination check, the loop body,
the loop and `solve` never change the no-improvement counter (it stays at its
initial 0), and with the counter at 0 an intensification restart triggers
exactly when `restart_patience = 1` (in particular never when it exceeds 1). -/
theorem c9_no_improvement_counter (p : EngineParams) (hp : p.patience = none) :
    (∀ (ev : Evaluator) (o : Oracle) (st : TSState),
      ((evalTermination p ev o st).1).noImp = st.noImp) ∧
    (∀ (n : Nat) (cfg : TSConfig) (ev : Evaluator) (o : Oracle) (st st' : TSState),
      loopBody n cfg ev o st = Except.ok st' → st'.noImp = st.noImp) ∧
    (∀ (n : Nat) (cfg : TSConfig) (ev : Evaluator) (o : Oracle) (fuel : Nat)
        (st st' : TSState),
      runLoop n cfg p ev o fuel st = Except.ok st' → st'.noImp = st.noImp) ∧
    (∀ (n : Nat) (cfg : TSConfig) (ev : Evaluator) (o : Oracle) (consFuel fuel : Nat)
        (st' : TSState),
      solve n cfg p ev o consFuel fuel = Except.ok st' → st'.noImp = 0) ∧
    (∀ (cfg : TSConfig) (c : IbrConfig) (st : TSState), cfg.ibr = some c →
      1 ≤ c.restartPatience → st.noImp = 0 →
      (restartTriggered cfg st = true ↔ c.restartPatience = 1)) := by
  refine ⟨fun ev o st => et_noImp_none p ev o st hp,
    fun n cfg ev o st st' h => (loopBody_frame h).2.1,
    fun n cfg ev o fuel st st' h => runLoop_noImp n cfg p ev o hp fuel st st' h,
    fun n cfg ev o consFuel fuel st' h => solve_noImp n cfg p ev o consFuel fuel st' hp h,
    ?_⟩
  intro cfg c st hc h1 h0
  rw [restartTriggered_iff cfg c st hc, h0]
  constructor
  · intro hmod
    by_contra hne
    rw [Nat.mod_eq_of_lt (by omega)] at hmod
    exact absurd hmod one_ne_zero
  · intro h1'
    rw [h1']

/-- C9 witness: the counter is untouched by a concrete termination check under
a patience-free configuration. -/
theorem c9_no_improvement_counter_witness :
    ((evalTermination fiveIterParams tinyEv idOracle dfltState).1).noImp = dfltState.noImp :=
  (c9_no_improvement_counter fiveIterParams rfl).1 tinyEv idOracle dfltState

/-- C10: with an empty insertion candidate list the requested probabilistic
sample size is `max(1, 0) = 1`, and on a one-element instance whose
construction selects the only element, both strategies' runs of `solve` with
probabilistic TS enabled and a valid parameter raise the sampling error. -/
theorem c10_sample_error_reachable :
    (∀ p : ℚ, sampleSize 0 p = 1) ∧
    solve 1 probBestCfg fiveIterParams tinyEv idOracle 3 5 = Except.error sampleErrMsg ∧
    solve 1 probFirstCfg fiveIterParams tinyEv idOracle 3 5 = Except.error sampleErrMsg := by
  refine ⟨?_, by rfl, by rfl⟩
  intro p
  unfold sampleSize
  simp

end ScQbfTS
